import Mathlib

/-!
Verification of the enhanced-pandana accessibility engine against its
natural-language specification.

The embedding below follows `src/accessibility.cpp`, `src/graphalg.cpp` and
`src/contraction_hierarchies/src/POIIndex/EnhancedPOIIndex.h`.  Machine floats
are modelled by rationals; the C library transcendentals `exp` and `sqrt` are
abstracted as parameters `expFn`/`sqrtFn`, since every statement proved here is
about the algebraic structure around those calls, not about their numeric
values.  The contraction-hierarchy internals (`computeReachableNodesWithin`,
`getNearestWithUpperBoundOnDistanceAndLocations`, `DISTANCEMULTFACT`) are not
part of the given sources; they are modelled from the specification and marked
as such in their doc comments.
-/

/-- Modelled from the spec: the fixed-point scale factor `DISTANCEMULTFACT`
lives in `shared.h`, which is not among the given sources.  The spec (§3) fixes
an integer factor `SCALE`, default 1000; internal distances are weights
multiplied by this factor. -/
def SCALE : ℚ := 1000

/-- A weighted graph as the engine sees it after construction: a number of
nodes and a list of directed edges `(from, to, w)` whose weights are already
in scaled fixed-point units (unsigned integers in the source). -/
structure WGraph where
  numnodes : ℕ
  edges : List (ℕ × ℕ × ℕ)
deriving DecidableEq

instance : Inhabited WGraph := ⟨⟨0, []⟩⟩

/-- Minimum of two optional distances (`none` = unreachable). -/
def omin : Option ℕ → Option ℕ → Option ℕ
  | none, b => b
  | some a, none => some a
  | some a, some b => some (min a b)

/-- One Bellman-Ford relaxation round over all edges: entry `v` of the result
is the minimum of the old entry and `dist u + w` over all edges `(u, v, w)`. -/
def relaxOnce (edges : List (ℕ × ℕ × ℕ)) (dist : List (Option ℕ)) :
    List (Option ℕ) :=
  (List.range dist.length).map (fun v =>
    edges.foldl (fun acc e =>
      if e.2.1 = v then
        match dist.getD e.1 none with
        | some du => omin acc (some (du + e.2.2))
        | none => acc
      else acc) (dist.getD v none))

/-- Scaled shortest-path distances from `src` to every node, by `numnodes`
Bellman-Ford rounds (`none` = unreachable). -/
def shortestDists (g : WGraph) (src : ℕ) : List (Option ℕ) :=
  (relaxOnce g.edges)^[g.numnodes]
    ((List.range g.numnodes).map (fun v => if v = src then some 0 else none))

/-- Modelled from the spec: `CH::ContractionHierarchies::computeReachableNodesWithin`
is not among the given sources (only its caller `Graphalg::Range` is).  Per the
spec's range contract (§4.C3 and §8 invariants 2-3) it returns, for a source
and a scaled radius, every node `v` whose scaled shortest-path distance `d`
satisfies `d ≤ maxdist`, as `(v, d)` pairs, one entry per node. -/
def computeReachableNodesWithin (g : WGraph) (src : ℕ) (maxdist : ℚ) :
    List (ℕ × ℕ) :=
  (List.range g.numnodes).filterMap (fun v =>
    match (shortestDists g src).getD v none with
    | some d => if (d : ℚ) ≤ maxdist then some (v, d) else none
    | none => none)

/-- `Graphalg::Range` (graphalg.cpp, lines 79-97): call the CH range query with
the radius scaled up by `SCALE` and scale the returned distances back down. -/
def Graphalg.Range (g : WGraph) (src : ℕ) (maxdist : ℚ) : List (ℕ × ℚ) :=
  (computeReachableNodesWithin g src (maxdist * SCALE)).map
    (fun nd => (nd.1, (nd.2 : ℚ) / SCALE))

/- ### Accessibility state (accessibility.h) -/

/-- The parts of the `Accessibility` object that the verified queries read:
the per-weight subgraphs `ga`, the node count, the range-cache radius
`dmsradius` (negative when no cache was precomputed), the cache `dms` indexed
`[graphno][node]`, and the registered attribute categories
(`accessibilityVars`, one list of values per node). -/
structure Accessibility where
  ga : List WGraph
  numnodes : ℕ
  dmsradius : ℚ
  dms : List (List (List (ℕ × ℚ)))
  accessibilityVars : List (String × List (List ℚ))

/-- The aggregation names registered by the constructor
(accessibility.cpp, lines 30-39). -/
def aggregations : List String :=
  ["sum", "mean", "min", "25pct", "median", "75pct", "max", "std", "count"]

/-- The decay names registered by the constructor
(accessibility.cpp, lines 41-44). -/
def decays : List String := ["exp", "linear", "flat"]

/-- `Accessibility::precomputeRangeQueries` (accessibility.cpp, lines 62-83):
fill `dms[j][i]` with `ga[j]->Range(i, radius)` for every graph `j` and every
internal node `i`, and record the cache radius. -/
def precomputeRangeQueries (acc : Accessibility) (radius : ℚ) : Accessibility :=
  { acc with
    dms := acc.ga.map (fun g =>
      (List.range acc.numnodes).map (fun i => Graphalg.Range g i radius)),
    dmsradius := radius }

/-- The external-to-internal node id translation built at the top of
`Accessibility::Range`: an `unordered_map` populated by first-wins inserts, so
a present key maps to the first index holding it; `operator[]` on a missing
key value-initializes to `0`. -/
def intId (ext_ids : List ℕ) (x : ℕ) : ℕ :=
  if x ∈ ext_ids then ext_ids.indexOf x else 0

/-- `Accessibility::Range` (accessibility.cpp, lines 86-125): per source,
either read the cached distance list (when `dmsradius > 0` and
`radius ≤ dmsradius` - note: without filtering it to the query radius) or run
a fresh `Graphalg::Range`; then translate internal node ids back to external
ones. -/
def Accessibility.Range (acc : Accessibility) (srcnodes : List ℕ) (radius : ℚ)
    (graphno : ℕ) (ext_ids : List ℕ) : List (List (ℕ × ℚ)) :=
  let dists : List (List (ℕ × ℚ)) :=
    if 0 < acc.dmsradius ∧ radius ≤ acc.dmsradius then
      srcnodes.map (fun s => (acc.dms.getD graphno []).getD (intId ext_ids s) [])
    else
      srcnodes.map (fun s =>
        Graphalg.Range (acc.ga.getD graphno default) (intId ext_ids s) radius)
  dists.map (fun d => d.map (fun nd => (ext_ids.getD nd.1 0, nd.2)))

/- ### Aggregation (accessibility.cpp, lines 393-525) -/

/-- The decay weight applied to one attribute value, mirroring the three
`sum_function` lambdas (accessibility.cpp, lines 487-497).  The callers only
ever pass one of the three registered decay names (an unrecognized name would
leave the `std::function` empty in the source); the final branch is the
`"flat"` lambda. -/
def sumFunction (expFn : ℚ → ℚ) (decay : String) (distance radius x : ℚ) : ℚ :=
  if decay = "exp" then expFn (-1 * distance / radius) * x
  else if decay = "linear" then (1 - distance / radius) * x
  else x

/-- The `(distance, value)` pairs visited by the aggregation loops
(accessibility.cpp, lines 403-410, 417-426 and 499-513): iterate the distance
list in order, skip entries with `distance > radius`, and expand each kept
node into one pair per attribute value stored at it. -/
def settledItems (distances : List (ℕ × ℚ)) (vars : List (List ℚ))
    (radius : ℚ) : List (ℚ × ℚ) :=
  distances.flatMap (fun nd =>
    if nd.2 > radius then []
    else (vars.getD nd.1 []).map (fun x => (nd.2, x)))

/-- `Accessibility::quantileAccessibilityVariable` (accessibility.cpp, lines
393-436): collect the values within the radius, return `-1` when there are
none, otherwise sort ascending and index by `⌊count * quantile⌋`, overridden
to `0` when `quantile ≤ 0` and to `count - 1` when `quantile ≥ 1`. -/
def quantileAccessibilityVariable (distances : List (ℕ × ℚ))
    (vars : List (List ℚ)) (quantile radius : ℚ) : ℚ :=
  let vals := (settledItems distances vars radius).map Prod.snd
  if vals.length = 0 then -1
  else
    let sorted := vals.mergeSort (fun a b => decide (a ≤ b))
    let ind : ℕ :=
      if quantile ≤ 0 then 0
      else if 1 ≤ quantile then vals.length - 1
      else ⌊(vals.length : ℚ) * quantile⌋₊
    sorted.getD ind 0

/-- The body of `Accessibility::aggregateAccessibilityVariable` after the
distance list has been acquired (accessibility.cpp, lines 462-525): `-1` on an
empty distance list; quantile dispatch for the five quantile-class
aggregations; otherwise the moment-class accumulation (`std` forces the decay
to `"flat"`, `sumsq` always accumulates the raw squares). -/
def aggregateFromDistances (expFn sqrtFn : ℚ → ℚ)
    (distances : List (ℕ × ℚ)) (vars : List (List ℚ))
    (aggtyp decay : String) (radius : ℚ) : ℚ :=
  if distances.length = 0 then -1
  else if aggtyp = "min" then
    quantileAccessibilityVariable distances vars 0 radius
  else if aggtyp = "25pct" then
    quantileAccessibilityVariable distances vars (1/4) radius
  else if aggtyp = "median" then
    quantileAccessibilityVariable distances vars (1/2) radius
  else if aggtyp = "75pct" then
    quantileAccessibilityVariable distances vars (3/4) radius
  else if aggtyp = "max" then
    quantileAccessibilityVariable distances vars 1 radius
  else
    let decay2 := if aggtyp = "std" then "flat" else decay
    let items := settledItems distances vars radius
    let cnt : ℕ := items.length
    let sum : ℚ := (items.map (fun p => sumFunction expFn decay2 p.1 radius p.2)).sum
    let sumsq : ℚ := (items.map (fun p => p.2 * p.2)).sum
    if aggtyp = "count" then (cnt : ℚ)
    else if aggtyp = "mean" ∧ cnt ≠ 0 then sum / (cnt : ℚ)
    else if aggtyp = "std" ∧ cnt ≠ 0 then
      sqrtFn (sumsq / (cnt : ℚ) - (sum / (cnt : ℚ)) * (sum / (cnt : ℚ)))
    else sum

/-- The distance-list acquisition at the top of
`Accessibility::aggregateAccessibilityVariable` (accessibility.cpp, lines
450-460): reuse the cached list when `dmsradius > 0` and
`radius ≤ dmsradius`, otherwise run a fresh range query. -/
def acquireDistances (acc : Accessibility) (srcnode : ℕ) (radius : ℚ)
    (gno : ℕ) : List (ℕ × ℚ) :=
  if 0 < acc.dmsradius ∧ radius ≤ acc.dmsradius then
    (acc.dms.getD gno []).getD srcnode []
  else
    Graphalg.Range (acc.ga.getD gno default) srcnode radius

/-- `Accessibility::aggregateAccessibilityVariable` in full
(accessibility.cpp, lines 439-525): acquisition followed by the aggregation
body. -/
def aggregateAccessibilityVariable (expFn sqrtFn : ℚ → ℚ)
    (acc : Accessibility) (srcnode : ℕ) (radius : ℚ) (vars : List (List ℚ))
    (aggtyp decay : String) (gno : ℕ) : ℚ :=
  aggregateFromDistances expFn sqrtFn (acquireDistances acc srcnode radius gno)
    vars aggtyp decay radius

/-- `Accessibility::getAllAggregateAccessibilityVariables` (accessibility.cpp,
lines 359-390): an unregistered category, aggregation or decay yields the
empty vector; otherwise every node is aggregated. -/
def getAllAggregateAccessibilityVariables (expFn sqrtFn : ℚ → ℚ)
    (acc : Accessibility) (radius : ℚ) (category aggtyp decay : String)
    (graphno : ℕ) : List ℚ :=
  if acc.accessibilityVars.lookup category = none ∨ aggtyp ∉ aggregations ∨
      decay ∉ decays then []
  else
    (List.range acc.numnodes).map (fun i =>
      aggregateAccessibilityVariable expFn sqrtFn acc i radius
        ((acc.accessibilityVars.lookup category).getD []) aggtyp decay graphno)

/- ### POI queries (accessibility.cpp, lines 214-276; graphalg.cpp, lines 192-213) -/

/-- The per-node POI-index lists built by `Accessibility::initializeCategory`
(accessibility.cpp, lines 214-236).  The node loop sits inside the loop over
all subgraphs, so for every graph `i` and every `j` the POI index `j` is
pushed onto the list at node `node_idx[j]`: with `G` graphs each POI index
appears `G` times in its node's list. -/
def initPOIVars (numgraphs numnodes : ℕ) (node_idx : List ℕ) :
    List (List ℕ) :=
  (List.range numgraphs).foldl
    (fun av0 _ =>
      node_idx.enum.foldl
        (fun av ji => av.set ji.2 (av.getD ji.2 [] ++ [ji.1])) av0)
    (List.replicate numnodes [])

/-- Comparison used when selecting the nearest POI candidates: by distance,
ties by smaller poi index, then by smaller node (spec §4.C4 step 3). -/
def poiCandLe (a b : ℕ × ℕ × ℕ) : Bool :=
  decide (a.1 < b.1) ||
    (decide (a.1 = b.1) &&
      (decide (a.2.1 < b.2.1) ||
        (decide (a.2.1 = b.2.1) && decide (a.2.2 ≤ b.2.2))))

/-- Modelled from the spec:
`CH::ContractionHierarchies::getNearestWithUpperBoundOnDistanceAndLocations`
is not among the given sources (only its caller `Graphalg::NearestPOI` is).
Per §4.C4 of the spec the candidates are the POIs `p` (located at node
`poiNodes[p]`) whose scaled shortest-path distance `d` from `src` satisfies
`d ≤ maxdist`; the `number` smallest are kept, ties broken by smaller poi
index then smaller node, and each is reported as the POI's node paired with
its scaled distance. -/
def nearestPOIBucketEntries (g : WGraph) (poiNodes : List ℕ) (src : ℕ)
    (maxdist : ℚ) (number : ℕ) : List (ℕ × ℕ) :=
  let cands : List (ℕ × ℕ × ℕ) := poiNodes.enum.filterMap (fun pv =>
    match (shortestDists g src).getD pv.2 none with
    | some d => if (d : ℚ) ≤ maxdist then some (d, pv.1, pv.2) else none
    | none => none)
  ((cands.mergeSort poiCandLe).take number).map (fun c => (c.2.2, c.1))

/-- Insertion into an association list ordered by key with overwrite on an
existing key: the model of assignment into a `std::map` keyed by node id,
whose iteration order is ascending by key. -/
def insertAssoc (m : List (ℕ × ℚ)) (k : ℕ) (v : ℚ) : List (ℕ × ℚ) :=
  match m with
  | [] => [(k, v)]
  | (k2, v2) :: t =>
    if k < k2 then (k, v) :: (k2, v2) :: t
    else if k = k2 then (k, v) :: t
    else (k2, v2) :: insertAssoc t k v

/-- `Graphalg::NearestPOI` (graphalg.cpp, lines 192-213): run the CH bucket
query with the radius scaled up, then assign `dm[node] = distance / SCALE`
entry by entry into a `std::map`. -/
def Graphalg.NearestPOI (g : WGraph) (poiNodes : List ℕ) (src : ℕ)
    (maxdist : ℚ) (number : ℕ) : List (ℕ × ℚ) :=
  (nearestPOIBucketEntries g poiNodes src (maxdist * SCALE) number).foldl
    (fun dm e => insertAssoc dm e.1 ((e.2 : ℚ) / SCALE)) []

/-- `Accessibility::findNearestPOIs` (accessibility.cpp, lines 243-276) for a
registered category: iterate the node-to-distance map, expand each node into
one `(distance, poi_index)` pair per POI stored at it, then `std::sort` with
the comparator `l.first < r.first` (distance only). -/
def findNearestPOIs (g : WGraph) (numgraphs numnodes : ℕ)
    (poiNodes : List ℕ) (src : ℕ) (maxradius : ℚ) (number : ℕ) :
    List (ℚ × ℕ) :=
  let distancesmap := Graphalg.NearestPOI g poiNodes src maxradius number
  let vars := initPOIVars numgraphs numnodes poiNodes
  let pairs := distancesmap.flatMap (fun nd =>
    (vars.getD nd.1 []).map (fun p => (nd.2, p)))
  pairs.mergeSort (fun a b => decide (a.1 ≤ b.1))

/- ### HybridRange (graphalg.cpp, lines 100-189) -/

/-- Lexicographic comparison on `(distance, node)` pairs: the order used by
`std::sort` on `std::pair<unsigned, NodeID>` values. -/
def pairLexLe (a b : ℕ × ℕ) : Bool :=
  decide (a.1 < b.1) || (decide (a.1 = b.1) && decide (a.2 ≤ b.2))

/-- The frontier preparation at the top of each bounded-relaxation round
(graphalg.cpp, lines 129-142): frontiers longer than 50 are partially sorted
by distance and truncated to 50; shorter frontiers are fully sorted by the
pair order. -/
def sortTruncFrontier (f : List (ℕ × ℕ)) : List (ℕ × ℕ) :=
  if f.length > 50 then
    ((f.mergeSort (fun a b => decide (a.1 ≤ b.1))).take 50)
  else f.mergeSort pairLexLe

/-- The frontier expansion loop of one relaxation round (graphalg.cpp, lines
144-159): skip entries beyond the scaled radius or already visited, mark the
node visited and emit it with its inverse-scaled distance.  The source never
fills `next_frontier` (neighbor expansion is left to the CH fallback), so the
fold only threads the visited marks and the result list. -/
def processFrontier (maxdistScaled : ℚ) (frontier : List (ℕ × ℕ))
    (visited : List Bool) (res : List (ℕ × ℚ)) :
    List Bool × List (ℕ × ℚ) :=
  frontier.foldl (fun vr fn =>
    if (fn.1 : ℚ) > maxdistScaled ∨ vr.1.getD fn.2 false then vr
    else (vr.1.set fn.2 true, vr.2 ++ [(fn.2, (fn.1 : ℚ) / SCALE)]))
    (visited, res)

/-- The bounded-relaxation rounds of `Graphalg::HybridRange` (graphalg.cpp,
lines 126-162): up to `rounds` iterations, each sorting and truncating the
current frontier, expanding it, and replacing it with the (always empty) next
frontier. -/
def hybridRounds (maxdistScaled : ℚ) : ℕ → List (ℕ × ℕ) → List Bool →
    List (ℕ × ℚ) → List Bool × List (ℕ × ℚ)
  | 0, _, visited, res => (visited, res)
  | r + 1, frontier, visited, res =>
    if frontier = [] then (visited, res)
    else
      let f := sortTruncFrontier frontier
      let vr := processFrontier maxdistScaled f visited res
      hybridRounds maxdistScaled r [] vr.1 vr.2

/-- `Graphalg::HybridRange` (graphalg.cpp, lines 100-189): for
`0 < k_rounds ≤ 5`, run the bounded-relaxation rounds seeded with
`(0, src)`; when fewer than 10 nodes were found (always the case, since the
relaxation never expands neighbors), supplement with the CH range query,
skipping nodes already found.  Otherwise fall back to the plain
`Graphalg::Range`. -/
def Graphalg.HybridRange (g : WGraph) (src : ℕ) (maxdist : ℚ)
    (k_rounds : ℤ) : List (ℕ × ℚ) :=
  if 0 < k_rounds ∧ k_rounds ≤ 5 then
    let maxdistScaled := maxdist * SCALE
    let vr := hybridRounds maxdistScaled k_rounds.toNat [(0, src)]
      (List.replicate g.numnodes false) []
    if vr.2.length < 10 then
      let chres := computeReachableNodesWithin g src maxdistScaled
      let found := vr.2.foldl (fun af nd => af.set nd.1 true)
        (List.replicate g.numnodes false)
      vr.2 ++ (chres.filter (fun nd => ¬ found.getD nd.1 false)).map
        (fun nd => (nd.1, (nd.2 : ℚ) / SCALE))
    else vr.2
  else Graphalg.Range g src maxdist

/- ### PartialBucket (EnhancedPOIIndex.h, lines 12-95) -/

/-- `CH::PartialBucketEntry` (EnhancedPOIIndex.h, lines 12-24): a POI node and
its scaled distance (the `in_partial_order` flag never influences the verified
operations and is omitted). -/
structure PartialBucketEntry where
  node : ℕ
  distance : ℕ
deriving DecidableEq

/-- `CH::PartialBucket` (EnhancedPOIIndex.h, lines 27-95): the sorted
`k_smallest` list, the unsorted `overflow` list, the bound `max_k` on
`k_smallest`, and the overflow capacity reserved at construction
(`total_capacity - k`), which push_backs never exceed. -/
structure PartialBucket where
  k_smallest : List PartialBucketEntry
  overflow : List PartialBucketEntry
  max_k : ℕ
  ovCap : ℕ
deriving DecidableEq

/-- The effect of `std::lower_bound` followed by `insert` on a vector sorted
by distance: place the entry before the first element whose distance is not
smaller. -/
def lowerInsert (l : List PartialBucketEntry) (e : PartialBucketEntry) :
    List PartialBucketEntry :=
  match l with
  | [] => [e]
  | a :: t => if a.distance < e.distance then a :: lowerInsert t e
              else e :: a :: t

/-- `CH::PartialBucket::insert` (EnhancedPOIIndex.h, lines 41-61).  While
`k_smallest` is not full, insert in sorted order.  Once full: an entry better
than the worst displaces it (the worst moves to overflow if there is room);
an entry no better goes to overflow if there is room; otherwise it is
discarded.  `back()` on an empty `k_smallest` (only reachable when
`max_k = 0`) is undefined behaviour in the source; the model leaves the
bucket unchanged there. -/
def PartialBucket.insert (b : PartialBucket) (e : PartialBucketEntry) :
    PartialBucket :=
  if b.k_smallest.length < b.max_k then
    { b with k_smallest := lowerInsert b.k_smallest e }
  else
    match b.k_smallest.getLast? with
    | none => b
    | some back =>
      if e.distance < back.distance then
        let ov := if b.overflow.length < b.ovCap then b.overflow ++ [back]
                  else b.overflow
        { b with k_smallest := lowerInsert b.k_smallest.dropLast e,
                 overflow := ov }
      else if b.overflow.length < b.ovCap then
        { b with overflow := b.overflow ++ [e] }
      else b

/-- Comparison of bucket entries by distance (`operator<` in the source,
relaxed to its reflexive closure for sorting). -/
def entryLe (a b : PartialBucketEntry) : Bool := decide (a.distance ≤ b.distance)

/-- `CH::PartialBucket::getKSmallest` (EnhancedPOIIndex.h, lines 63-85): take
up to `k` entries from the sorted `k_smallest`; if more are needed and the
overflow is non-empty, sort the overflow (fully or partially, which agree on
the returned prefix) and append the missing entries. -/
def PartialBucket.getKSmallest (b : PartialBucket) (k : ℕ) :
    List PartialBucketEntry :=
  let to_return := min k b.k_smallest.length
  let res := b.k_smallest.take to_return
  if to_return < k ∧ b.overflow ≠ [] then
    let needed := k - to_return
    if b.overflow.length ≤ needed then res ++ b.overflow.mergeSort entryLe
    else res ++ (b.overflow.mergeSort entryLe).take needed
  else res

/- ### Helper lemmas for the aggregation layer -/

/-- A quantile query over an empty item collection returns the `-1` sentinel. -/
theorem quantile_of_no_items (distances : List (ℕ × ℚ)) (vars : List (List ℚ))
    (q radius : ℚ) (h : settledItems distances vars radius = []) :
    quantileAccessibilityVariable distances vars q radius = -1 := by
  unfold quantileAccessibilityVariable
  simp [h]

/-- A concrete `Accessibility` value with an empty graph, no cache and no
registered category, used to instantiate witnesses. -/
def accEmpty : Accessibility := ⟨[⟨0, []⟩], 0, -1, [], []⟩

/-- C4: `getAllAggregateAccessibilityVariables` returns the empty vector, with
no error, whenever the category is not registered, the aggregation name is not
one of the nine registered ones, or the decay name is not one of the three
registered ones. -/
theorem getAll_unknown_inputs_empty (expFn sqrtFn : ℚ → ℚ)
    (acc : Accessibility) (radius : ℚ) (category aggtyp decay : String)
    (graphno : ℕ)
    (h : acc.accessibilityVars.lookup category = none ∨
      aggtyp ∉ aggregations ∨ decay ∉ decays) :
    getAllAggregateAccessibilityVariables expFn sqrtFn acc radius category
      aggtyp decay graphno = [] := by
  unfold getAllAggregateAccessibilityVariables
  rw [if_pos h]

/-- Witness for C4 at a concrete input: the category `"jobs"` is unregistered,
so the call returns the empty vector. -/
theorem getAll_unknown_inputs_empty_witness :
    accEmpty.accessibilityVars.lookup "jobs" = none ∧
    getAllAggregateAccessibilityVariables id id accEmpty 5 "jobs" "sum" "flat"
      0 = [] :=
  ⟨rfl, getAll_unknown_inputs_empty id id accEmpty 5 "jobs" "sum" "flat" 0
    (Or.inl rfl)⟩

/-- C3: an empty range yields the `-1` sentinel from
`aggregateAccessibilityVariable` for every aggregation, and the five
quantile-class aggregations yield `-1` whenever no attribute item lies at a
settled node within the radius. -/
theorem aggregate_empty_sentinel (expFn sqrtFn : ℚ → ℚ) (acc : Accessibility)
    (srcnode : ℕ) (radius : ℚ) (vars : List (List ℚ)) (aggtyp decay : String)
    (gno : ℕ) :
    (acquireDistances acc srcnode radius gno = [] →
      aggregateAccessibilityVariable expFn sqrtFn acc srcnode radius vars
        aggtyp decay gno = -1) ∧
    ((aggtyp = "min" ∨ aggtyp = "25pct" ∨ aggtyp = "median" ∨
        aggtyp = "75pct" ∨ aggtyp = "max") →
      settledItems (acquireDistances acc srcnode radius gno) vars radius = [] →
      aggregateAccessibilityVariable expFn sqrtFn acc srcnode radius vars
        aggtyp decay gno = -1) := by
  constructor
  · intro h
    unfold aggregateAccessibilityVariable aggregateFromDistances
    rw [h]
    simp
  · intro hq hitems
    unfold aggregateAccessibilityVariable aggregateFromDistances
    by_cases hd : (acquireDistances acc srcnode radius gno).length = 0
    · rw [if_pos hd]
    · rw [if_neg hd]
      rcases hq with h | h | h | h | h <;> subst h <;>
        simp only [if_pos rfl, if_neg (by decide : ¬ ("25pct" = "min")),
          if_neg (by decide : ¬ ("median" = "min")),
          if_neg (by decide : ¬ ("median" = "25pct")),
          if_neg (by decide : ¬ ("75pct" = "min")),
          if_neg (by decide : ¬ ("75pct" = "25pct")),
          if_neg (by decide : ¬ ("75pct" = "median")),
          if_neg (by decide : ¬ ("max" = "min")),
          if_neg (by decide : ¬ ("max" = "25pct")),
          if_neg (by decide : ¬ ("max" = "median")),
          if_neg (by decide : ¬ ("max" = "75pct"))] <;>
        exact quantile_of_no_items _ _ _ _ hitems

/-- Witness for C3 at a concrete input: with an empty graph the acquired range
is empty, and both sentinel paths return `-1`. -/
theorem aggregate_empty_sentinel_witness :
    aggregateAccessibilityVariable id id accEmpty 0 5 [] "sum" "flat" 0 = -1 ∧
    aggregateAccessibilityVariable id id accEmpty 0 5 [] "min" "flat" 0 = -1 :=
  ⟨(aggregate_empty_sentinel id id accEmpty 0 5 [] "sum" "flat" 0).1 (by decide),
   (aggregate_empty_sentinel id id accEmpty 0 5 [] "min" "flat" 0).2
     (Or.inl rfl) (by decide)⟩

/-- C9: when the range is non-empty but no attribute item lies within the
radius, the moment-class aggregations do not produce the `-1` sentinel:
`count` returns `0`, `sum` returns `0`, and `mean` returns the undivided sum
`0` (the division by the count is skipped when the count is zero). -/
theorem moment_class_no_items_not_sentinel (expFn sqrtFn : ℚ → ℚ)
    (distances : List (ℕ × ℚ)) (vars : List (List ℚ)) (decay : String)
    (radius : ℚ) (hne : distances ≠ [])
    (hempty : settledItems distances vars radius = []) :
    aggregateFromDistances expFn sqrtFn distances vars "count" decay radius = 0
    ∧ aggregateFromDistances expFn sqrtFn distances vars "sum" decay radius = 0
    ∧ aggregateFromDistances expFn sqrtFn distances vars "mean" decay radius
        = 0 := by
  have hlen : ¬ distances.length = 0 := by
    simpa [List.length_eq_zero] using hne
  refine ⟨?_, ?_, ?_⟩ <;>
    · unfold aggregateFromDistances
      rw [if_neg hlen]
      simp [hempty]

/-- Witness for C9 at a concrete input: one settled node beyond the radius
carries an attribute value, so the range is non-empty but no item is within
the radius. -/
theorem moment_class_no_items_witness :
    aggregateFromDistances id id [(0, 7)] [[3]] "count" "flat" 5 = 0 ∧
    aggregateFromDistances id id [(0, 7)] [[3]] "sum" "flat" 5 = 0 ∧
    aggregateFromDistances id id [(0, 7)] [[3]] "mean" "flat" 5 = 0 :=
  moment_class_no_items_not_sentinel id id [(0, 7)] [[3]] "flat" 5
    (by decide) (by decide)

/-- C7: for aggregation `"std"` with any requested decay name, the decay is
overridden to `"flat"`: when at least one item lies within the radius the
result is `sqrtFn (E[x²] − E[x]²)` over the raw attribute values of the
settled nodes within the radius, independent of `decay` and of `expFn`. -/
theorem std_flat_decay (expFn sqrtFn : ℚ → ℚ) (distances : List (ℕ × ℚ))
    (vars : List (List ℚ)) (decay : String) (radius : ℚ)
    (hne : distances ≠ [])
    (hitems : settledItems distances vars radius ≠ []) :
    aggregateFromDistances expFn sqrtFn distances vars "std" decay radius =
      sqrtFn
        (((settledItems distances vars radius).map (fun p => p.2 * p.2)).sum
            / ((settledItems distances vars radius).length : ℚ)
          - (((settledItems distances vars radius).map (fun p => p.2)).sum
              / ((settledItems distances vars radius).length : ℚ))
            * (((settledItems distances vars radius).map (fun p => p.2)).sum
              / ((settledItems distances vars radius).length : ℚ))) := by
  have hlen : ¬ distances.length = 0 := by
    simpa [List.length_eq_zero] using hne
  have hcnt : (settledItems distances vars radius).length ≠ 0 := by
    simpa [List.length_eq_zero] using hitems
  unfold aggregateFromDistances
  rw [if_neg hlen]
  have hflat : ∀ p ∈ settledItems distances vars radius,
      sumFunction expFn "flat" p.1 radius p.2 = p.2 := by
    intro p _; unfold sumFunction; simp
  simp only [String.reduceEq, false_and, if_false, true_and, ite_false,
    ite_true]
  rw [if_pos hcnt, List.map_congr_left hflat]

/-- Witness for C7 at a concrete input: values `{1, 3}` within radius 5 under
the requested decay `"exp"` give `sqrtFn (5 − 4) = sqrtFn 1`; with
`sqrtFn = id` the result is `1`. -/
theorem std_flat_decay_witness :
    aggregateFromDistances (fun q => q + 7) id [(0, 1), (1, 2)] [[1], [3]]
      "std" "exp" 5 = 1 := by
  have h := std_flat_decay (fun q => q + 7) id [(0, 1), (1, 2)] [[1], [3]]
    "exp" 5 (by decide) (by simp [settledItems])
  rw [h]
  norm_num [settledItems]

/-- The decay weight exactly as claim C2 states it: `exp(−d/R)` for `"exp"`,
`max(0, 1 − d/R)` for `"linear"`, `1` for `"flat"`. -/
def claimDecay (expFn : ℚ → ℚ) (decay : String) (d radius : ℚ) : ℚ :=
  if decay = "exp" then expFn (-d / radius)
  else if decay = "linear" then max 0 (1 - d / radius)
  else 1

/-- On a settled item within the radius, the source's `sum_function` weight
coincides with the claim's decay weight. -/
theorem sumFunction_eq_claimDecay (expFn : ℚ → ℚ) (decay : String)
    (d radius x : ℚ) (hR : 0 < radius) (hd : d ≤ radius) :
    sumFunction expFn decay d radius x = claimDecay expFn decay d radius * x := by
  unfold sumFunction claimDecay
  by_cases he : decay = "exp"
  · simp [he, neg_one_mul, neg_div]
  · by_cases hl : decay = "linear"
    · have h0 : (0:ℚ) ≤ 1 - d / radius := by
        have := (div_le_one hR).mpr hd
        linarith
      simp [he, hl, max_eq_right h0]
    · simp [he, hl]

/-- The accumulated moment-class sum over the settled items equals the sum of
the claim's per-item contributions `decay(d, R) · x`. -/
theorem settled_sum_eq_claim (expFn : ℚ → ℚ) (decay : String)
    (distances : List (ℕ × ℚ)) (vars : List (List ℚ)) (radius : ℚ)
    (hR : 0 < radius) :
    ((settledItems distances vars radius).map
        (fun p => sumFunction expFn decay p.1 radius p.2)).sum =
      (distances.flatMap (fun nd => if nd.2 ≤ radius then
        (vars.getD nd.1 []).map
          (fun x => claimDecay expFn decay nd.2 radius * x)
        else [])).sum := by
  induction distances with
  | nil => simp [settledItems]
  | cons hd tl ih =>
    have hsplit : settledItems (hd :: tl) vars radius
        = (if hd.2 > radius then []
            else (vars.getD hd.1 []).map (fun x => (hd.2, x)))
          ++ settledItems tl vars radius := by
      simp [settledItems]
    rw [hsplit, List.map_append, List.sum_append, List.flatMap_cons,
      List.sum_append, ih]
    congr 1
    by_cases h : hd.2 > radius
    · rw [if_pos h, if_neg (not_le.mpr h)]
      simp
    · rw [if_neg h, if_pos (not_lt.mp h), List.map_map]
      refine congrArg List.sum (List.map_congr_left ?_)
      intro x _
      exact sumFunction_eq_claimDecay expFn decay hd.2 radius x hR
        (not_lt.mp h)

/-- C2: for a non-empty range, `"sum"` accumulates `decay(d, R) · x` over
every attribute value `x` at every settled node with `d ≤ R`, with decay
`exp(−d/R)` for `"exp"`, `max(0, 1 − d/R)` for `"linear"` and `1` for
`"flat"`; `"mean"` divides that same accumulated sum by the item count. -/
theorem sum_mean_decay_contribution (expFn sqrtFn : ℚ → ℚ)
    (distances : List (ℕ × ℚ)) (vars : List (List ℚ)) (decay : String)
    (radius : ℚ) (hR : 0 < radius) (hne : distances ≠ [])
    (_hdecay : decay ∈ decays) :
    (aggregateFromDistances expFn sqrtFn distances vars "sum" decay radius =
      (distances.flatMap (fun nd => if nd.2 ≤ radius then
        (vars.getD nd.1 []).map
          (fun x => claimDecay expFn decay nd.2 radius * x)
        else [])).sum)
    ∧ ((settledItems distances vars radius).length ≠ 0 →
      aggregateFromDistances expFn sqrtFn distances vars "mean" decay radius =
        (distances.flatMap (fun nd => if nd.2 ≤ radius then
          (vars.getD nd.1 []).map
            (fun x => claimDecay expFn decay nd.2 radius * x)
          else [])).sum / ((settledItems distances vars radius).length : ℚ)) := by
  have hlen : ¬ distances.length = 0 := by
    simpa [List.length_eq_zero] using hne
  constructor
  · unfold aggregateFromDistances
    rw [if_neg hlen]
    simp only [String.reduceEq, false_and, if_false, true_and, ite_false,
      ite_true]
    exact settled_sum_eq_claim expFn decay distances vars radius hR
  · intro hcnt
    unfold aggregateFromDistances
    rw [if_neg hlen]
    simp only [String.reduceEq, false_and, if_false, true_and, ite_false,
      ite_true]
    rw [if_pos hcnt, settled_sum_eq_claim expFn decay distances vars radius hR]

/-- Witness for C2 at a concrete input: a single node at distance 2 with value
3 under `"linear"` decay and radius 5 contributes `(1 − 2/5) · 3 = 9/5` to
both the sum and (with one item) the mean. -/
theorem sum_mean_decay_contribution_witness :
    aggregateFromDistances id id [(0, 2)] [[3]] "sum" "linear" 5 = 9/5 ∧
    aggregateFromDistances id id [(0, 2)] [[3]] "mean" "linear" 5 = 9/5 := by
  have h := sum_mean_decay_contribution id id [(0, 2)] [[3]] "linear" 5
    (by decide) (by decide) (by decide)
  constructor
  · rw [h.1]
    norm_num [claimDecay, String.reduceEq]
    all_goals decide
  · rw [h.2 (by norm_num [settledItems])]
    norm_num [claimDecay, settledItems, String.reduceEq]
    all_goals decide

/-- The values collected by the aggregation loops are exactly the attribute
values at settled nodes within the radius, in iteration order. -/
theorem map_snd_settledItems (distances : List (ℕ × ℚ))
    (vars : List (List ℚ)) (radius : ℚ) :
    (settledItems distances vars radius).map Prod.snd
      = distances.flatMap (fun nd =>
          if nd.2 ≤ radius then vars.getD nd.1 [] else []) := by
  induction distances with
  | nil => simp [settledItems]
  | cons hd tl ih =>
    have hsplit : settledItems (hd :: tl) vars radius
        = (if hd.2 > radius then []
            else (vars.getD hd.1 []).map (fun x => (hd.2, x)))
          ++ settledItems tl vars radius := by
      simp [settledItems]
    rw [hsplit, List.map_append, ih, List.flatMap_cons]
    congr 1
    by_cases h : hd.2 > radius
    · rw [if_pos h, if_neg (not_le.mpr h)]
      simp
    · rw [if_neg h, if_pos (not_lt.mp h), List.map_map]
      simp

/-- The reference quantile computation, written from the claim's words:
collect every attribute value at every settled node with `d ≤ R` into one
buffer, sort it ascending, and return the element at index
`⌊quantile · count⌋` clamped to `[0, count − 1]`; `-1` on an empty buffer. -/
def quantileReference (distances : List (ℕ × ℚ)) (vars : List (List ℚ))
    (quantile radius : ℚ) : ℚ :=
  let buffer := distances.flatMap (fun nd =>
    if nd.2 ≤ radius then vars.getD nd.1 [] else [])
  if buffer = [] then -1
  else (buffer.mergeSort (fun a b => decide (a ≤ b))).getD
    (min ⌊quantile * (buffer.length : ℚ)⌋₊ (buffer.length - 1)) 0

/-- For the five quantiles actually dispatched by the source, the source's
index computation agrees with the reference's clamped floor. -/
theorem quantile_eq_reference (distances : List (ℕ × ℚ))
    (vars : List (List ℚ)) (radius q : ℚ)
    (hq : q = 0 ∨ q = 1/4 ∨ q = 1/2 ∨ q = 3/4 ∨ q = 1) :
    quantileAccessibilityVariable distances vars q radius
      = quantileReference distances vars q radius := by
  unfold quantileAccessibilityVariable quantileReference
  rw [map_snd_settledItems]
  set buffer := distances.flatMap (fun nd =>
    if nd.2 ≤ radius then vars.getD nd.1 [] else []) with hbuf
  by_cases hb : buffer = []
  · simp [hb]
  · have hlen : ¬ buffer.length = 0 := by
      simpa [List.length_eq_zero] using hb
    rw [if_neg hlen, if_neg hb]
    have hpos : 1 ≤ buffer.length := Nat.one_le_iff_ne_zero.mpr hlen
    have hposq : (0:ℚ) < (buffer.length : ℚ) := by exact_mod_cast hpos
    have hmid : ∀ r : ℚ, q = r → 0 < r → r < 1 →
        (if q ≤ 0 then 0 else if 1 ≤ q then buffer.length - 1
          else ⌊(buffer.length : ℚ) * q⌋₊)
          = min ⌊q * (buffer.length : ℚ)⌋₊ (buffer.length - 1) := by
      intro r hqr h0 h1
      subst hqr
      rw [if_neg (not_le.mpr h0), if_neg (not_le.mpr h1), mul_comm]
      have hlt : ⌊(q : ℚ) * (buffer.length : ℚ)⌋₊ < buffer.length := by
        rw [mul_comm, Nat.floor_lt (by positivity)]
        calc (buffer.length : ℚ) * q < (buffer.length : ℚ) * 1 :=
              mul_lt_mul_of_pos_left h1 hposq
          _ = (buffer.length : ℚ) := mul_one _
      exact (min_eq_left (Nat.le_pred_of_lt hlt)).symm
    have hind : (if q ≤ 0 then 0 else if 1 ≤ q then buffer.length - 1
          else ⌊(buffer.length : ℚ) * q⌋₊)
          = min ⌊q * (buffer.length : ℚ)⌋₊ (buffer.length - 1) := by
      rcases hq with h | h | h | h | h
      · subst h
        simp
      · exact hmid (1/4) h (by norm_num) (by norm_num)
      · exact hmid (1/2) h (by norm_num) (by norm_num)
      · exact hmid (3/4) h (by norm_num) (by norm_num)
      · subst h
        rw [if_neg (by norm_num : ¬ (1:ℚ) ≤ 0), if_pos le_rfl, one_mul,
          Nat.floor_natCast]
        exact (min_eq_right (Nat.sub_le _ _)).symm
    rw [hind]

/-- C6: each of the five quantile-class aggregations equals the reference
computation (collect, sort ascending, index by the clamped floor of
`quantile · count`), with quantiles `0`, `1/4`, `1/2`, `3/4`, `1`. -/
theorem quantile_class_matches_reference (expFn sqrtFn : ℚ → ℚ)
    (distances : List (ℕ × ℚ)) (vars : List (List ℚ)) (decay : String)
    (radius : ℚ) :
    aggregateFromDistances expFn sqrtFn distances vars "min" decay radius
        = quantileReference distances vars 0 radius
    ∧ aggregateFromDistances expFn sqrtFn distances vars "25pct" decay radius
        = quantileReference distances vars (1/4) radius
    ∧ aggregateFromDistances expFn sqrtFn distances vars "median" decay radius
        = quantileReference distances vars (1/2) radius
    ∧ aggregateFromDistances expFn sqrtFn distances vars "75pct" decay radius
        = quantileReference distances vars (3/4) radius
    ∧ aggregateFromDistances expFn sqrtFn distances vars "max" decay radius
        = quantileReference distances vars 1 radius := by
  by_cases hd : distances.length = 0
  · have hdist : distances = [] := List.length_eq_zero.mp hd
    subst hdist
    refine ⟨?_, ?_, ?_, ?_, ?_⟩ <;>
      · unfold aggregateFromDistances quantileReference
        simp
  · refine ⟨?_, ?_, ?_, ?_, ?_⟩ <;>
      unfold aggregateFromDistances <;>
      rw [if_neg hd] <;>
      simp only [String.reduceEq, if_false, if_true, ite_true, ite_false]
    · exact quantile_eq_reference distances vars radius 0 (Or.inl rfl)
    · exact quantile_eq_reference distances vars radius (1/4)
        (Or.inr (Or.inl rfl))
    · exact quantile_eq_reference distances vars radius (1/2)
        (Or.inr (Or.inr (Or.inl rfl)))
    · exact quantile_eq_reference distances vars radius (3/4)
        (Or.inr (Or.inr (Or.inr (Or.inl rfl))))
    · exact quantile_eq_reference distances vars radius 1
        (Or.inr (Or.inr (Or.inr (Or.inr rfl))))

/- ### PartialBucket invariants (C10) -/

/-- `lowerInsert` adds exactly one element. -/
theorem lowerInsert_length (l : List PartialBucketEntry)
    (e : PartialBucketEntry) : (lowerInsert l e).length = l.length + 1 := by
  induction l with
  | nil => rfl
  | cons a t ih =>
    unfold lowerInsert
    split_ifs with h
    · simp [ih]
    · simp

/-- Members of `lowerInsert l e` are `e` or members of `l`. -/
theorem lowerInsert_mem (l : List PartialBucketEntry)
    (e x : PartialBucketEntry) (hx : x ∈ lowerInsert l e) :
    x = e ∨ x ∈ l := by
  induction l with
  | nil =>
    simp [lowerInsert] at hx
    exact Or.inl hx
  | cons a t ih =>
    unfold lowerInsert at hx
    split_ifs at hx with h
    · rcases List.mem_cons.mp hx with rfl | hx2
      · exact Or.inr (List.mem_cons_self _ _)
      · rcases ih hx2 with h1 | h1
        · exact Or.inl h1
        · exact Or.inr (List.mem_cons_of_mem _ h1)
    · rcases List.mem_cons.mp hx with rfl | hx2
      · exact Or.inl rfl
      · exact Or.inr hx2

/-- `lowerInsert` preserves ascending order by distance. -/
theorem lowerInsert_sorted (l : List PartialBucketEntry)
    (e : PartialBucketEntry)
    (hs : List.Pairwise (fun a c => a.distance ≤ c.distance) l) :
    List.Pairwise (fun a c => a.distance ≤ c.distance) (lowerInsert l e) := by
  induction l with
  | nil => simp [lowerInsert]
  | cons a t ih =>
    rcases List.pairwise_cons.mp hs with ⟨ha, ht⟩
    unfold lowerInsert
    split_ifs with h
    · refine List.pairwise_cons.mpr ⟨?_, ih ht⟩
      intro x hx
      rcases lowerInsert_mem t e x hx with rfl | hxt
      · exact le_of_lt h
      · exact ha x hxt
    · refine List.pairwise_cons.mpr ⟨?_, hs⟩
      intro x hx
      rcases List.mem_cons.mp hx with rfl | hxt
      · exact not_lt.mp h
      · exact le_trans (not_lt.mp h) (ha x hxt)

/-- In a list sorted ascending by distance, every member's distance is at
most the last element's distance. -/
theorem sorted_le_getLast (l : List PartialBucketEntry)
    (back : PartialBucketEntry)
    (hs : List.Pairwise (fun a c => a.distance ≤ c.distance) l)
    (hl : l.getLast? = some back) :
    ∀ a ∈ l, a.distance ≤ back.distance := by
  induction l with
  | nil => simp at hl
  | cons x t ih =>
    cases t with
    | nil =>
      simp at hl
      subst hl
      intro a ha
      simp at ha
      subst ha
      exact le_refl _
    | cons y u =>
      rw [List.getLast?_cons_cons] at hl
      intro a ha
      rcases List.mem_cons.mp ha with rfl | hat
      · have hback : back ∈ y :: u :=
          List.mem_of_mem_getLast? (by rw [hl]; rfl)
        exact (List.pairwise_cons.mp hs).1 back hback
      · exact ih (List.pairwise_cons.mp hs).2 hl a hat

/-- The invariant claimed for `PartialBucket`: `k_smallest` holds at most
`max_k` entries in ascending distance order, and every overflow entry's
distance is at least every `k_smallest` entry's distance (in particular at
least the largest one). -/
def PBInv (b : PartialBucket) : Prop :=
  b.k_smallest.length ≤ b.max_k
  ∧ List.Pairwise (fun a c => a.distance ≤ c.distance) b.k_smallest
  ∧ ∀ o ∈ b.overflow, ∀ a ∈ b.k_smallest, a.distance ≤ o.distance

/-- The strengthened inductive invariant: additionally, a non-empty overflow
forces `k_smallest` to be full (entries reach the overflow only once
`k_smallest` is full, and its size never shrinks afterwards). -/
def PBInvFull (b : PartialBucket) : Prop :=
  PBInv b ∧ (b.overflow ≠ [] → b.k_smallest.length = b.max_k)

/-- `PartialBucket.insert` preserves the strengthened invariant. -/
theorem insert_preserves_PBInvFull (b : PartialBucket)
    (e : PartialBucketEntry) (hinv : PBInvFull b) :
    PBInvFull (b.insert e) := by
  rcases hinv with ⟨⟨hlen, hsort, hov⟩, hfull⟩
  unfold PartialBucket.insert
  by_cases hlt : b.k_smallest.length < b.max_k
  · rw [if_pos hlt]
    have hovnil : b.overflow = [] := by
      by_contra hne
      exact Nat.ne_of_lt hlt (hfull hne)
    refine ⟨⟨?_, lowerInsert_sorted _ _ hsort, ?_⟩, ?_⟩
    · rw [lowerInsert_length]
      exact Nat.succ_le_of_lt hlt
    · intro o ho
      rw [hovnil] at ho
      exact absurd ho (List.not_mem_nil o)
    · intro hne
      exact absurd hovnil (by simpa using hne)
  · rw [if_neg hlt]
    have heq : b.k_smallest.length = b.max_k :=
      Nat.le_antisymm hlen (not_lt.mp hlt)
    cases hks : b.k_smallest.getLast? with
    | none => exact ⟨⟨hlen, hsort, hov⟩, hfull⟩
    | some back =>
      dsimp only
      have hbackmem : back ∈ b.k_smallest :=
        List.mem_of_mem_getLast? (by rw [hks]; rfl)
      have hksne : b.k_smallest ≠ [] := by
        intro h0
        rw [h0] at hks
        simp at hks
      have hlastle : ∀ a ∈ b.k_smallest, a.distance ≤ back.distance :=
        sorted_le_getLast _ _ hsort hks
      have hdropsub : b.k_smallest.dropLast ⊆ b.k_smallest :=
        (List.dropLast_sublist _).subset
      by_cases hed : e.distance < back.distance
      · rw [if_pos hed]
        have hklen : (lowerInsert b.k_smallest.dropLast e).length
            = b.k_smallest.length := by
          rw [lowerInsert_length, List.length_dropLast,
            Nat.sub_add_cancel (List.length_pos.mpr hksne)]
        have hsort2 : List.Pairwise (fun a c => a.distance ≤ c.distance)
            (lowerInsert b.k_smallest.dropLast e) :=
          lowerInsert_sorted _ _
            (List.Pairwise.sublist (List.dropLast_sublist _) hsort)
        have hmemle : ∀ a ∈ lowerInsert b.k_smallest.dropLast e,
            a.distance ≤ back.distance := by
          intro a ha
          rcases lowerInsert_mem _ _ _ ha with rfl | hmem
          · exact le_of_lt hed
          · exact hlastle a (hdropsub hmem)
        refine ⟨⟨?_, hsort2, ?_⟩, ?_⟩
        · rw [hklen]
          exact hlen
        · intro o ho a ha
          by_cases hroom : b.overflow.length < b.ovCap
          · rw [if_pos hroom] at ho
            rcases List.mem_append.mp ho with ho2 | ho2
            · rcases lowerInsert_mem _ _ _ ha with rfl | hmem
              · exact le_trans (le_of_lt hed) (hov o ho2 back hbackmem)
              · exact hov o ho2 a (hdropsub hmem)
            · have hob : o = back := by simpa using ho2
              subst hob
              exact hmemle a ha
          · rw [if_neg hroom] at ho
            rcases lowerInsert_mem _ _ _ ha with rfl | hmem
            · exact le_trans (le_of_lt hed) (hov o ho back hbackmem)
            · exact hov o ho a (hdropsub hmem)
        · intro _
          rw [hklen]
          exact heq
      · rw [if_neg hed]
        by_cases hroom : b.overflow.length < b.ovCap
        · rw [if_pos hroom]
          refine ⟨⟨hlen, hsort, ?_⟩, fun _ => heq⟩
          intro o ho a ha
          rcases List.mem_append.mp ho with ho2 | ho2
          · exact hov o ho2 a ha
          · have hoe : o = e := by simpa using ho2
            subst hoe
            exact le_trans (hlastle a ha) (not_lt.mp hed)
        · rw [if_neg hroom]
          exact ⟨⟨hlen, hsort, hov⟩, hfull⟩

/-- `getKSmallest` never returns more than `k` entries. -/
theorem getKSmallest_length_le (b : PartialBucket) (k : ℕ) :
    (b.getKSmallest k).length ≤ k := by
  unfold PartialBucket.getKSmallest
  dsimp only
  split_ifs with h1 h2
  · rw [List.length_append, List.length_take, List.length_mergeSort]
    omega
  · rw [List.length_append, List.length_take, List.length_take,
      List.length_mergeSort]
    omega
  · rw [List.length_take]
    omega

/-- The sorted overflow is pairwise ascending by distance. -/
theorem mergeSort_entryLe_sorted (l : List PartialBucketEntry) :
    List.Pairwise (fun a c => a.distance ≤ c.distance)
      (l.mergeSort entryLe) := by
  have h := @List.sorted_mergeSort _ entryLe
    (fun a b c hab hbc => by
      simp only [entryLe, decide_eq_true_eq] at *
      exact le_trans hab hbc)
    (fun a b => by
      simp only [entryLe, Bool.or_eq_true, decide_eq_true_eq]
      exact le_total a.distance b.distance) l
  exact h.imp (fun hab => by
    simpa only [entryLe, decide_eq_true_eq] using hab)

/-- Under the bucket invariant, `getKSmallest` returns entries in ascending
distance order. -/
theorem getKSmallest_sorted (b : PartialBucket) (k : ℕ) (hinv : PBInv b) :
    List.Pairwise (fun a c => a.distance ≤ c.distance)
      (b.getKSmallest k) := by
  rcases hinv with ⟨_, hsort, hov⟩
  have htake : List.Pairwise (fun a c => a.distance ≤ c.distance)
      (b.k_smallest.take (min k b.k_smallest.length)) :=
    List.Pairwise.sublist (List.take_sublist _ _) hsort
  have hcross : ∀ x ∈ b.k_smallest.take (min k b.k_smallest.length),
      ∀ y ∈ b.overflow.mergeSort entryLe, x.distance ≤ y.distance := by
    intro x hx y hy
    exact hov y ((List.mergeSort_perm b.overflow entryLe).mem_iff.mp hy) x
      ((List.take_sublist _ _).subset hx)
  unfold PartialBucket.getKSmallest
  dsimp only
  split_ifs with h1 h2
  · exact List.pairwise_append.mpr
      ⟨htake, mergeSort_entryLe_sorted _, hcross⟩
  · refine List.pairwise_append.mpr
      ⟨htake, List.Pairwise.sublist (List.take_sublist _ _)
        (mergeSort_entryLe_sorted _), ?_⟩
    intro x hx y hy
    exact hcross x hx y ((List.take_sublist _ _).subset hy)
  · exact htake

/-- Any sequence of inserts starting from an empty bucket preserves the
strengthened invariant. -/
theorem foldl_insert_PBInvFull (entries : List PartialBucketEntry)
    (b : PartialBucket) (hb : PBInvFull b) :
    PBInvFull (entries.foldl PartialBucket.insert b) := by
  induction entries generalizing b with
  | nil => exact hb
  | cons e t ih => exact ih _ (insert_preserves_PBInvFull b e hb)

/-- C10: across any sequence of `insert` calls from an empty bucket,
`k_smallest` stays sorted ascending by distance with at most `max_k` entries
and every overflow entry's distance is at least every `k_smallest` entry's
distance; consequently `getKSmallest k` returns at most `k` entries in
ascending distance order. -/
theorem partialBucket_insert_invariant (entries : List PartialBucketEntry)
    (maxk cap k : ℕ) :
    PBInv (entries.foldl PartialBucket.insert ⟨[], [], maxk, cap⟩)
    ∧ ((entries.foldl PartialBucket.insert
        ⟨[], [], maxk, cap⟩).getKSmallest k).length ≤ k
    ∧ List.Pairwise (fun a c => a.distance ≤ c.distance)
        ((entries.foldl PartialBucket.insert
          ⟨[], [], maxk, cap⟩).getKSmallest k) := by
  have hbase : PBInvFull ⟨[], [], maxk, cap⟩ := by
    refine ⟨⟨by simp, List.Pairwise.nil, ?_⟩, ?_⟩
    · intro o ho
      exact absurd ho (List.not_mem_nil o)
    · intro h
      exact absurd rfl h
  have hfold := foldl_insert_PBInvFull entries ⟨[], [], maxk, cap⟩ hbase
  exact ⟨hfold.1, getKSmallest_length_le _ k, getKSmallest_sorted _ k hfold.1⟩

/- ### The range cache (C1) -/

/-- Every pair returned by `Graphalg::Range` has distance at most the
requested radius. -/
theorem range_distance_le (g : WGraph) (src : ℕ) (maxdist : ℚ) :
    ∀ p ∈ Graphalg.Range g src maxdist, p.2 ≤ maxdist := by
  intro p hp
  unfold Graphalg.Range at hp
  rcases List.mem_map.mp hp with ⟨nd, hnd, rfl⟩
  unfold computeReachableNodesWithin at hnd
  rcases List.mem_filterMap.mp hnd with ⟨v, _, hveq⟩
  cases hsd : (shortestDists g src).getD v none with
  | none =>
    rw [hsd] at hveq
    simp at hveq
  | some d =>
    rw [hsd] at hveq
    dsimp only at hveq
    split_ifs at hveq with hle
    · have hnd2 : nd = (v, d) := by
        injection hveq with h
        exact h.symm
      subst hnd2
      exact (div_le_iff₀
        (show (0:ℚ) < SCALE by norm_num [SCALE])).mpr hle

/-- C1 amended: after `precomputeRangeQueries(R_c)` with `R_c > 0`, a query
with radius `R' ≤ R_c` is answered from the cache by returning each source's
full precomputed list - computed at radius `R_c` and not filtered down to
`R'`.  The result therefore equals the same query computed fresh at radius
`R_c` (not `R'`), and every returned distance is at most `R_c` (not
necessarily at most `R'`). -/
theorem range_cache_returns_cached_lists (acc : Accessibility) (Rc Rq : ℚ)
    (srcnodes ext_ids : List ℕ) (gno : ℕ)
    (hpos : 0 < Rc) (hle : Rq ≤ Rc) (hg : gno < acc.ga.length)
    (hsrc : ∀ s ∈ srcnodes, intId ext_ids s < acc.numnodes)
    (hnc : ¬ (0 < acc.dmsradius ∧ Rc ≤ acc.dmsradius)) :
    Accessibility.Range (precomputeRangeQueries acc Rc) srcnodes Rq gno
        ext_ids
      = Accessibility.Range acc srcnodes Rc gno ext_ids
    ∧ ∀ l ∈ Accessibility.Range (precomputeRangeQueries acc Rc) srcnodes Rq
        gno ext_ids, ∀ p ∈ l, p.2 ≤ Rc := by
  have hgd : acc.ga.getD gno default = acc.ga[gno] := by
    rw [List.getD_eq_getElem?_getD, List.getElem?_eq_getElem hg,
      Option.getD_some]
  have h1 : (precomputeRangeQueries acc Rc).dms.getD gno []
      = (List.range acc.numnodes).map
          (fun i => Graphalg.Range acc.ga[gno] i Rc) := by
    simp only [precomputeRangeQueries]
    rw [List.getD_eq_getElem?_getD, List.getElem?_map,
      List.getElem?_eq_getElem hg, Option.map_some', Option.getD_some]
  have hcached : ∀ s ∈ srcnodes,
      ((precomputeRangeQueries acc Rc).dms.getD gno []).getD
          (intId ext_ids s) []
        = Graphalg.Range (acc.ga.getD gno default) (intId ext_ids s) Rc := by
    intro s hs
    have hid := hsrc s hs
    rw [h1, List.getD_eq_getElem?_getD, List.getElem?_map,
      List.getElem?_range hid, Option.map_some', Option.getD_some, hgd]
  have hlhs : Accessibility.Range (precomputeRangeQueries acc Rc) srcnodes
      Rq gno ext_ids
      = srcnodes.map (fun s =>
          (Graphalg.Range (acc.ga.getD gno default) (intId ext_ids s)
            Rc).map (fun nd => (ext_ids.getD nd.1 0, nd.2))) := by
    unfold Accessibility.Range
    rw [if_pos (show 0 < (precomputeRangeQueries acc Rc).dmsradius ∧
        Rq ≤ (precomputeRangeQueries acc Rc).dmsradius from ⟨hpos, hle⟩)]
    rw [List.map_map]
    exact List.map_congr_left (fun s hs => by
      dsimp only [Function.comp]
      rw [hcached s hs])
  constructor
  · rw [hlhs]
    unfold Accessibility.Range
    rw [if_neg hnc, List.map_map]
    rfl
  · intro l hl p hp
    rw [hlhs] at hl
    rcases List.mem_map.mp hl with ⟨s, _, rfl⟩
    rcases List.mem_map.mp hp with ⟨nd, hnd, rfl⟩
    exact range_distance_le _ _ _ nd hnd

/-- The two-node graph used in the concrete C1 instances: one edge of scaled
weight 2000 (2.0 cost units with `SCALE = 1000`). -/
def gC1 : WGraph := ⟨2, [(0, 1, 2000)]⟩

/-- An `Accessibility` over `gC1` with no cache and no categories. -/
def accC1 : Accessibility := ⟨[gC1], 2, -1, [], []⟩

/-- Scaled shortest-path distances on the concrete graph from node 0. -/
theorem gC1_shortestDists0 : shortestDists gC1 0 = [some 0, some 2000] := by
  decide

/-- Scaled shortest-path distances on the concrete graph from node 1. -/
theorem gC1_shortestDists1 : shortestDists gC1 1 = [none, some 0] := by
  decide

/-- The fresh range query on the concrete graph at radius 3. -/
theorem gC1_range0_3 : Graphalg.Range gC1 0 3 = [(0, 0), (1, 2)] := by
  norm_num [Graphalg.Range, computeReachableNodesWithin,
    (show gC1.numnodes = 2 from rfl),
    (show List.range 2 = [0, 1] from by decide),
    gC1_shortestDists0, SCALE, List.filterMap_cons]

/-- The fresh range query from node 1 at radius 3. -/
theorem gC1_range1_3 : Graphalg.Range gC1 1 3 = [(1, 0)] := by
  norm_num [Graphalg.Range, computeReachableNodesWithin,
    (show gC1.numnodes = 2 from rfl),
    (show List.range 2 = [0, 1] from by decide),
    gC1_shortestDists1, SCALE, List.filterMap_cons]

/-- The fresh range query on the concrete graph at radius 1. -/
theorem gC1_range0_1 : Graphalg.Range gC1 0 1 = [(0, 0)] := by
  norm_num [Graphalg.Range, computeReachableNodesWithin,
    (show gC1.numnodes = 2 from rfl),
    (show List.range 2 = [0, 1] from by decide),
    gC1_shortestDists0, SCALE, List.filterMap_cons]

/-- Counterexample to C1 as stated: on the two-node graph, after
`precomputeRangeQueries(3)`, the cache-hit query at radius `1` returns the
unfiltered cached list `[(0,0),(1,2)]`, which differs from the fresh query at
radius `1` (namely `[(0,0)]`) and contains the pair `(1, 2)` with distance
`2 > 1`. -/
theorem range_cache_not_transparent :
    Accessibility.Range (precomputeRangeQueries accC1 3) [0] 1 0 [0, 1]
      ≠ Accessibility.Range accC1 [0] 1 0 [0, 1]
    ∧ ∃ p ∈ (Accessibility.Range (precomputeRangeQueries accC1 3) [0] 1 0
        [0, 1]).getD 0 [], p.2 > 1 := by
  have h1 : Accessibility.Range (precomputeRangeQueries accC1 3) [0] 1 0
      [0, 1] = [[(0, 0), (1, 2)]] := by
    norm_num [Accessibility.Range, precomputeRangeQueries, accC1,
      (show List.range 2 = [0, 1] from by decide),
      (show intId [0, 1] 0 = 0 from by decide),
      gC1_range0_3, gC1_range1_3]
  have h2 : Accessibility.Range accC1 [0] 1 0 [0, 1] = [[(0, 0)]] := by
    norm_num [Accessibility.Range, accC1,
      (show intId [0, 1] 0 = 0 from by decide), gC1_range0_1]
  rw [h1, h2]
  constructor
  · intro h
    simp at h
  · exact ⟨(1, 2), by simp, by norm_num⟩

/-- Witness for the amended C1 at the concrete input: the cache-hit query at
radius `1` equals the fresh query at the cache radius `3`, and all its
distances are at most `3`. -/
theorem range_cache_returns_cached_lists_witness :
    Accessibility.Range (precomputeRangeQueries accC1 3) [0] 1 0 [0, 1]
      = Accessibility.Range accC1 [0] 3 0 [0, 1]
    ∧ ∀ l ∈ Accessibility.Range (precomputeRangeQueries accC1 3) [0] 1 0
        [0, 1], ∀ p ∈ l, p.2 ≤ 3 :=
  range_cache_returns_cached_lists accC1 3 1 [0] [0, 1] 0 (by decide)
    (by decide) (by decide) (by decide) (by decide)

/- ### Nearest POIs (C5) -/

/-- The final `std::sort` of `findNearestPOIs` orders the pairs ascending by
distance (its comparator reads only the distance). -/
theorem mergeSort_fstLe_sorted (l : List (ℚ × ℕ)) :
    List.Pairwise (fun a b : ℚ × ℕ => a.1 ≤ b.1)
      (l.mergeSort (fun a b => decide (a.1 ≤ b.1))) := by
  have h := @List.sorted_mergeSort _ (fun a b : ℚ × ℕ => decide (a.1 ≤ b.1))
    (fun a b c hab hbc => by
      simp only [decide_eq_true_eq] at *
      exact le_trans hab hbc)
    (fun a b => by
      simp only [Bool.or_eq_true, decide_eq_true_eq]
      exact le_total a.1 b.1) l
  exact h.imp (fun hab => by simpa only [decide_eq_true_eq] using hab)

/-- `insertAssoc` grows the association list by at most one entry. -/
theorem insertAssoc_length (m : List (ℕ × ℚ)) (k : ℕ) (v : ℚ) :
    (insertAssoc m k v).length ≤ m.length + 1 := by
  induction m with
  | nil => simp [insertAssoc]
  | cons a t ih =>
    unfold insertAssoc
    split_ifs with h1 h2
    · simp
    · simp
    · simpa using Nat.succ_le_succ ih

/-- Folding `insertAssoc` over a list grows the map by at most the list's
length. -/
theorem foldl_insertAssoc_length (entries : List (ℕ × ℕ))
    (m : List (ℕ × ℚ)) :
    (entries.foldl (fun dm e => insertAssoc dm e.1 ((e.2 : ℚ) / SCALE))
      m).length ≤ m.length + entries.length := by
  induction entries generalizing m with
  | nil => simp
  | cons e t ih =>
    calc (t.foldl (fun dm e => insertAssoc dm e.1 ((e.2 : ℚ) / SCALE))
          (insertAssoc m e.1 ((e.2 : ℚ) / SCALE))).length
        ≤ (insertAssoc m e.1 ((e.2 : ℚ) / SCALE)).length + t.length :=
          ih _
      _ ≤ (m.length + 1) + t.length :=
          Nat.add_le_add_right (insertAssoc_length m _ _) _
      _ = m.length + (e :: t).length := by
          simp only [List.length_cons]
          omega

/-- The node-to-distance map handed to `findNearestPOIs` holds at most
`number` entries. -/
theorem nearestPOI_length_le (g : WGraph) (poiNodes : List ℕ) (src : ℕ)
    (maxdist : ℚ) (number : ℕ) :
    (Graphalg.NearestPOI g poiNodes src maxdist number).length ≤ number := by
  unfold Graphalg.NearestPOI
  calc ((nearestPOIBucketEntries g poiNodes src (maxdist * SCALE)
          number).foldl
        (fun dm e => insertAssoc dm e.1 ((e.2 : ℚ) / SCALE)) []).length
      ≤ ([] : List (ℕ × ℚ)).length + (nearestPOIBucketEntries g poiNodes src
          (maxdist * SCALE) number).length :=
        foldl_insertAssoc_length _ _
    _ ≤ number := by
        unfold nearestPOIBucketEntries
        dsimp only
        rw [List.length_nil, Nat.zero_add, List.length_map,
          List.length_take]
        omega

/-- C5 amended: `findNearestPOIs` returns one `(distance, poi_index)` pair
per entry of the category's vars list at each node of the (up to
`number`-entry) nearest-POI map - one entry per graph per colocated POI -
sorted ascending by distance; when every node's vars list holds at most one
entry (a single graph and no colocated POIs) the result has at most
`number` entries.  (The order of equal-distance entries is not specified:
the source's `std::sort` comparator reads only the distance and the sort is
not stable.) -/
theorem findNearestPOIs_sorted_bounded (g : WGraph) (numgraphs numnodes : ℕ)
    (poiNodes : List ℕ) (src : ℕ) (maxradius : ℚ) (number : ℕ) :
    List.Pairwise (fun a b : ℚ × ℕ => a.1 ≤ b.1)
      (findNearestPOIs g numgraphs numnodes poiNodes src maxradius number)
    ∧ ((∀ v, ((initPOIVars numgraphs numnodes poiNodes).getD v []).length
          ≤ 1) →
      (findNearestPOIs g numgraphs numnodes poiNodes src maxradius
        number).length ≤ number) := by
  constructor
  · unfold findNearestPOIs
    exact mergeSort_fstLe_sorted _
  · intro hone
    unfold findNearestPOIs
    dsimp only
    rw [List.length_mergeSort, List.length_flatMap]
    calc (List.map (List.length ∘ fun nd =>
          ((initPOIVars numgraphs numnodes poiNodes).getD nd.1 []).map
            (fun p => (nd.2, p)))
          (Graphalg.NearestPOI g poiNodes src maxradius number)).sum
        ≤ (List.map (fun _ => 1)
            (Graphalg.NearestPOI g poiNodes src maxradius number)).sum := by
          apply List.sum_le_sum
          intro nd _
          simp only [Function.comp, List.length_map]
          exact hone nd.1
      _ = (Graphalg.NearestPOI g poiNodes src maxradius number).length := by
          induction Graphalg.NearestPOI g poiNodes src maxradius number with
          | nil => rfl
          | cons a t ih =>
            simp only [List.map_cons, List.sum_cons, List.length_cons, ih]
            omega
      _ ≤ number := nearestPOI_length_le g poiNodes src maxradius number

/-- The two-node graph for the C5 concrete instance: one edge of scaled
weight 1000 (1.0 cost units). -/
def gC5 : WGraph := ⟨2, [(0, 1, 1000)]⟩

/-- Scaled shortest-path distances on `gC5` from node 0. -/
theorem gC5_shortestDists0 : shortestDists gC5 0 = [some 0, some 1000] := by
  decide

/-- The bucket query on `gC5` with two POIs at node 1 and `number = 1`
returns the single nearest POI node. -/
theorem gC5_bucket :
    nearestPOIBucketEntries gC5 [1, 1] 0 5000 1 = [(1, 1000)] := by
  norm_num [nearestPOIBucketEntries,
    (show List.enum [1, 1] = [(0, 1), (1, 1)] from by decide),
    (show (shortestDists gC5 0)[1]? = some (some 1000) from by decide),
    List.filterMap_cons]
  rw [List.mergeSort_of_sorted (by decide)]
  decide

/-- The node-to-distance map on `gC5` holds the one POI node at distance 1. -/
theorem gC5_nearest : Graphalg.NearestPOI gC5 [1, 1] 0 5 1 = [(1, 1)] := by
  norm_num [Graphalg.NearestPOI, SCALE, gC5_bucket, insertAssoc]

/-- Counterexample to C5 as stated: with a single graph, two POIs registered
at node 1 and `k = 1`, `findNearestPOIs` expands the single returned node
into one pair per colocated POI and returns 2 entries, exceeding `k`. -/
theorem findNearestPOIs_exceeds_k :
    ¬ ((findNearestPOIs gC5 1 2 [1, 1] 0 5 1).length ≤ 1) := by
  have hvars : initPOIVars 1 2 [1, 1] = [[], [0, 1]] := by decide
  unfold findNearestPOIs
  rw [List.length_mergeSort]
  norm_num [gC5_nearest, hvars,
    (show (([[], [0, 1]] : List (List ℕ)))[1]? = some [0, 1] from rfl)]

/-- Witness for the amended C5 at a concrete input: with a single graph, a
single POI at node 1 and `k = 1`, the result is ascending by distance and
has at most one entry. -/
theorem findNearestPOIs_sorted_bounded_witness :
    List.Pairwise (fun a b : ℚ × ℕ => a.1 ≤ b.1)
      (findNearestPOIs gC5 1 2 [1] 0 5 1)
    ∧ (findNearestPOIs gC5 1 2 [1] 0 5 1).length ≤ 1 :=
  ⟨(findNearestPOIs_sorted_bounded gC5 1 2 [1] 0 5 1).1,
   (findNearestPOIs_sorted_bounded gC5 1 2 [1] 0 5 1).2 (by
     intro v
     rw [show initPOIVars 1 2 [1] = [[], [0]] from by decide]
     match v with
     | 0 => decide
     | 1 => decide
     | (n + 2) => simp [List.getD])⟩

/- ### HybridRange equivalence (C8) -/

/-- `getD` on a replicated list always returns the replicated value. -/
theorem getD_replicate_self {α : Type} (n i : ℕ) (a : α) :
    (List.replicate n a).getD i a = a := by
  rw [List.getD_eq_getElem?_getD, List.getElem?_replicate]
  split_ifs <;> rfl

/-- A Bellman-Ford relaxation fold that starts at distance `some 0` stays at
`some 0`: relaxation only ever takes minima against the accumulator. -/
theorem foldl_relax_zero (edges : List (ℕ × ℕ × ℕ))
    (dist : List (Option ℕ)) (v : ℕ) :
    edges.foldl (fun acc e =>
      if e.2.1 = v then
        match dist.getD e.1 none with
        | some du => omin acc (some (du + e.2.2))
        | none => acc
      else acc) (some 0) = some 0 := by
  induction edges with
  | nil => rfl
  | cons e t ih =>
    rw [List.foldl_cons]
    have hstep : (if e.2.1 = v then
        match dist.getD e.1 none with
        | some du => omin (some 0) (some (du + e.2.2))
        | none => some 0
      else some 0) = some 0 := by
      split_ifs with h
      · cases dist.getD e.1 none with
        | none => rfl
        | some du => simp [omin, Nat.zero_min]
      · rfl
    rw [hstep, ih]

/-- One relaxation round preserves the length of the distance array. -/
theorem relaxOnce_length (edges : List (ℕ × ℕ × ℕ))
    (dist : List (Option ℕ)) : (relaxOnce edges dist).length = dist.length := by
  unfold relaxOnce
  rw [List.length_map, List.length_range]

/-- One relaxation round preserves the source's distance `some 0`. -/
theorem relaxOnce_getD_src (edges : List (ℕ × ℕ × ℕ))
    (dist : List (Option ℕ)) (src : ℕ) (hsrc : src < dist.length)
    (h0 : dist.getD src none = some 0) :
    (relaxOnce edges dist).getD src none = some 0 := by
  unfold relaxOnce
  rw [List.getD_eq_getElem?_getD, List.getElem?_map,
    List.getElem?_range hsrc, Option.map_some', Option.getD_some, h0]
  exact foldl_relax_zero edges dist src

/-- The source always keeps scaled shortest-path distance `0` to itself. -/
theorem shortestDists_src (g : WGraph) (src : ℕ) (hsrc : src < g.numnodes) :
    (shortestDists g src).getD src none = some 0 := by
  have key : ∀ m : ℕ,
      ((relaxOnce g.edges)^[m] ((List.range g.numnodes).map
        (fun v => if v = src then some 0 else none))).length = g.numnodes
      ∧ ((relaxOnce g.edges)^[m] ((List.range g.numnodes).map
          (fun v => if v = src then some 0 else none))).getD src none
        = some 0 := by
    intro m
    induction m with
    | zero =>
      constructor
      · simp
      · rw [Function.iterate_zero_apply, List.getD_eq_getElem?_getD,
          List.getElem?_map, List.getElem?_range hsrc, Option.map_some',
          Option.getD_some, if_pos rfl]
    | succ k ih =>
      rw [Function.iterate_succ_apply']
      constructor
      · rw [relaxOnce_length, ih.1]
      · exact relaxOnce_getD_src _ _ _ (by rw [ih.1]; exact hsrc) ih.2
  exact (key g.numnodes).2

/-- Characterization of membership in the modelled CH range result. -/
theorem mem_computeReachable (g : WGraph) (src : ℕ) (maxdist : ℚ)
    (p : ℕ × ℕ) :
    p ∈ computeReachableNodesWithin g src maxdist
      ↔ p.1 < g.numnodes
        ∧ (shortestDists g src).getD p.1 none = some p.2
        ∧ (p.2 : ℚ) ≤ maxdist := by
  unfold computeReachableNodesWithin
  rw [List.mem_filterMap]
  constructor
  · rintro ⟨v, hv, heq⟩
    cases hsd : (shortestDists g src).getD v none with
    | none =>
      rw [hsd] at heq
      simp at heq
    | some d =>
      rw [hsd] at heq
      dsimp only at heq
      split_ifs at heq with hle
      · have hp : p = (v, d) := by
          injection heq with h
          exact h.symm
        subst hp
        exact ⟨List.mem_range.mp hv, hsd, hle⟩
  · rintro ⟨h1, h2, h3⟩
    refine ⟨p.1, List.mem_range.mpr h1, ?_⟩
    rw [h2]
    dsimp only
    rw [if_pos h3]

/-- The bounded-relaxation phase settles exactly the source at distance `0`:
the frontier is never refilled, so the first round emits the source and every
later round exits on an empty frontier. -/
theorem hybridRounds_singleton (maxdistScaled : ℚ) (n src : ℕ)
    (visited : List Bool) (hms : 0 ≤ maxdistScaled)
    (hv : visited.getD src false = false) :
    hybridRounds maxdistScaled (n + 1) [(0, src)] visited []
      = (visited.set src true, [(src, 0)]) := by
  unfold hybridRounds
  rw [if_neg (by simp : ¬ ([((0:ℕ), src)] = []))]
  dsimp only
  have hst : sortTruncFrontier [(0, src)] = [(0, src)] := by
    unfold sortTruncFrontier
    rw [if_neg (by simp)]
    exact List.mergeSort_of_sorted (List.pairwise_singleton _ _)
  rw [hst]
  have hpf : processFrontier maxdistScaled [(0, src)] visited []
      = (visited.set src true, [(src, 0)]) := by
    unfold processFrontier
    rw [List.foldl_cons, List.foldl_nil]
    rw [if_neg (by
      push_neg
      constructor
      · dsimp only
        rw [Nat.cast_zero]
        exact hms
      · dsimp only
        rw [hv]
        simp)]
    dsimp only
    rw [Nat.cast_zero, zero_div]
    simp
  rw [hpf]
  cases n with
  | zero => rfl
  | succ m =>
    unfold hybridRounds
    rw [if_pos rfl]

/-- C8: for every in-range source, non-negative radius and every `k_rounds`,
`HybridRange` returns the same set of `(node, distance)` pairs as the plain
CH range query `Range` (exactly, in the rational model): the relaxation phase
settles only the source at distance `0`, and the CH supplement contributes
every other reachable node. -/
theorem hybridRange_same_set (g : WGraph) (src : ℕ) (maxdist : ℚ)
    (k_rounds : ℤ) (hsrc : src < g.numnodes) (hmd : 0 ≤ maxdist) :
    ∀ p, p ∈ Graphalg.HybridRange g src maxdist k_rounds
      ↔ p ∈ Graphalg.Range g src maxdist := by
  intro p
  unfold Graphalg.HybridRange
  by_cases hk : 0 < k_rounds ∧ k_rounds ≤ 5
  · rw [if_pos hk]
    dsimp only
    obtain ⟨n, hn⟩ : ∃ n : ℕ, k_rounds.toNat = n + 1 :=
      ⟨k_rounds.toNat - 1, by omega⟩
    have hms : (0:ℚ) ≤ maxdist * SCALE :=
      mul_nonneg hmd (by norm_num [SCALE])
    have hv0 : (List.replicate g.numnodes false).getD src false = false :=
      getD_replicate_self _ _ _
    rw [hn, hybridRounds_singleton (maxdist * SCALE) n src _ hms hv0]
    dsimp only
    rw [if_pos (by simp : ([((src:ℕ), (0:ℚ))]).length < 10)]
    rw [List.foldl_cons, List.foldl_nil]
    dsimp only
    have hfound : ∀ v : ℕ,
        (((List.replicate g.numnodes false).set src true).getD v false
          = true) ↔ v = src := by
      intro v
      rw [List.getD_eq_getElem?_getD, List.getElem?_set]
      by_cases hvs : src = v
      · subst hvs
        rw [if_pos rfl, if_pos (by simpa using hsrc)]
        simp
      · rw [if_neg hvs, List.getElem?_replicate]
        split_ifs <;>
          exact iff_of_false (by simp) (fun h => hvs h.symm)
    unfold Graphalg.Range
    simp only [List.mem_append, List.mem_singleton, List.mem_map,
      List.mem_filter, decide_eq_true_eq]
    constructor
    · rintro (rfl | ⟨nd, ⟨hmem, _⟩, heq⟩)
      · refine ⟨(src, 0), ?_, ?_⟩
        · rw [mem_computeReachable]
          refine ⟨hsrc, shortestDists_src g src hsrc, ?_⟩
          rw [Nat.cast_zero]
          exact hms
        · dsimp only
          rw [Nat.cast_zero, zero_div]
      · exact ⟨nd, hmem, heq⟩
    · rintro ⟨nd, hmem, heq⟩
      by_cases hnd : nd.1 = src
      · left
        have h2 := (mem_computeReachable g src (maxdist * SCALE) nd).mp hmem
        have h21 := h2.2.1
        rw [hnd] at h21
        have h0 : some (0 : ℕ) = some nd.2 := by
          rw [← shortestDists_src g src hsrc]
          exact h21
        have h0v : nd.2 = 0 := by
          injection h0 with h
          exact h.symm
        rw [← heq, hnd, h0v, Nat.cast_zero, zero_div]
      · right
        refine ⟨nd, ⟨hmem, ?_⟩, heq⟩
        rw [hfound nd.1]
        exact hnd
  · rw [if_neg hk]

/-- Witness for C8 at a concrete input: on the two-node graph with radius 3
and `k_rounds = 3`, the hybrid and plain range queries contain the same
pairs. -/
theorem hybridRange_same_set_witness :
    ((0, 0) ∈ Graphalg.HybridRange gC1 0 3 3
      ↔ (0, 0) ∈ Graphalg.Range gC1 0 3)
    ∧ ((1, 2) ∈ Graphalg.HybridRange gC1 0 3 3
      ↔ (1, 2) ∈ Graphalg.Range gC1 0 3) :=
  ⟨hybridRange_same_set gC1 0 3 3 (by decide) (by decide) (0, 0),
   hybridRange_same_set gC1 0 3 3 (by decide) (by decide) (1, 2)⟩
